import Mathlib

/-!
Verification of the comment-block / style-guide parsing core of
`kss-cssdoc-node` (`lib/parse.js`).

The JavaScript source is shallowly embedded: strings are modelled as
`String` / `List Char`, JavaScript regular-expression operations are
translated into explicit character-list scanners that reproduce the
behaviour of the concrete patterns used by the source, mutable objects
built by `parse()` are modelled as ordered association lists from field
names to values, and the external collaborators (`docblock-parser`,
`marked`, `path.relative`, `KssStyleGuide`) are parameters of the
embedding.
-/

namespace KssCssdoc

/-- Character class of the JavaScript regex escape `\s` (restricted to the
ASCII whitespace characters; the source never feeds non-ASCII whitespace to
these patterns). -/
def isWsChar (c : Char) : Bool :=
  c = ' ' || c = '\t' || c = '\n' || c = '\r' || c = '\x0b' || c = '\x0c'

/-- Decimal-digit character class (`[0-9]`). -/
def isDecDigit (c : Char) : Bool :=
  '0' ≤ c && c ≤ '9'

/-- Hexadecimal-digit character class (`[0-9a-fA-F]`). -/
def isHexDigit (c : Char) : Bool :=
  isDecDigit c || ('a' ≤ c && c ≤ 'f') || ('A' ≤ c && c ≤ 'F')

/-- Octal-digit character class (`[0-7]`). -/
def isOctDigit (c : Char) : Bool :=
  '0' ≤ c && c ≤ '7'

/-- Binary-digit character class (`[01]`). -/
def isBinDigit (c : Char) : Bool :=
  c = '0' || c = '1'

/-- `line.replace(/\s*$/, '')`: strip the trailing run of whitespace. -/
def dropTrailingWs (l : List Char) : List Char :=
  (l.reverse.dropWhile isWsChar).reverse

/-- `input.replace(/\r\n/g, '\n').replace(/\r/g, '\n')`: normalize
Windows/Mac line endings to Unix ones (parse.js line 192): a `\r\n` pair
becomes one `\n`, a lone `\r` becomes `\n`. -/
def normalizeNewlines : List Char → List Char
  | [] => []
  | c :: rest =>
    if c = '\r' then
      match rest with
      | d :: rest2 =>
        if d = '\n' then '\n' :: normalizeNewlines rest2
        else '\n' :: normalizeNewlines (d :: rest2)
      | [] => ['\n']
    else c :: normalizeNewlines rest

/-- `input.split('\n')` (JavaScript `String.prototype.split` with a string
separator): a trailing separator yields a final empty piece. -/
def splitLines : List Char → List (List Char)
  | [] => [[]]
  | c :: rest =>
    if c = '\n' then [] :: splitLines rest
    else
      match splitLines rest with
      | l :: ls => (c :: l) :: ls
      | [] => [[c]]

/-- Test of `/^\s*\/\*\*\s*$/` (the `docblockStart` pattern of
parse.js line 185) against a whole line. -/
def matchDocblockStart (l : List Char) : Bool :=
  match l.dropWhile isWsChar with
  | '/' :: '*' :: '*' :: rest => rest.all isWsChar
  | _ => false

/-- Test of `/^\s*\/\*\*\s*$/` (the `multiStart` pattern of parse.js
line 186 — textually identical to `docblockStart`). -/
def matchMultiStart (l : List Char) : Bool :=
  match l.dropWhile isWsChar with
  | '/' :: '*' :: '*' :: rest => rest.all isWsChar
  | _ => false

/-- Test of `/^\s*\*\/\s*$/` (the `multiFinish` pattern of parse.js
line 187) against a whole line. -/
def matchMultiFinish (l : List Char) : Bool :=
  match l.dropWhile isWsChar with
  | '*' :: '/' :: rest => rest.all isWsChar
  | _ => false

/-- `line.replace(/^\s*\*\s?/, '')` (parse.js line 242): if the first
non-whitespace character is `*`, remove the leading whitespace, the `*`,
and at most one following whitespace character; otherwise leave the line
unchanged. -/
def stripDocStar (l : List Char) : List Char :=
  match l.dropWhile isWsChar with
  | '*' :: rest =>
    match rest with
    | c :: rest2 => if isWsChar c then rest2 else rest
    | [] => []
  | _ => l

/-- `text.replace(/^\n+/, '').replace(/\n+$/, '')` (parse.js line 217):
trim leading and trailing runs of newline characters. -/
def trimNlEdges (l : List Char) : List Char :=
  ((l.dropWhile (· = '\n')).reverse.dropWhile (· = '\n')).reverse

/-- `line.replace(new RegExp('^' + indentAmount), '', 1)` (parse.js
line 263): `indentAmount` is a run of whitespace characters (no regex
metacharacters), so this strips it as a literal prefix when it matches. -/
def stripIndent (ind l : List Char) : List Char :=
  if ind.isPrefixOf l then l.drop ind.length else l

/-- A comment block as produced by `findCommentBlocks` (parse.js
lines 194-199): starting line number, de-indented text, raw lines. -/
structure Block where
  line : Nat
  text : List Char
  raw : List Char
deriving DecidableEq, Repr

/-- The mutable scanner state of `findCommentBlocks` (parse.js
lines 194-203). `indentAmount === false` is modelled by `none`. -/
structure ScanState where
  blocks : List Block
  block : Block
  indentAmount : Option (List Char)
  insideSingleBlock : Bool
  insideMultiBlock : Bool
  insideDocblock : Bool
deriving DecidableEq, Repr

/-- Initial scanner state of `findCommentBlocks`. -/
def initState : ScanState :=
  ⟨[], ⟨0, [], []⟩, none, false, false, false⟩

/-- The branch chain of the `for` loop of `findCommentBlocks` after the
end-of-block check (parse.js lines 232-264), on the already
trailing-stripped line of index `i`: docblock opening, docblock interior,
multi-line opening, multi-line interior (with deferred `indentAmount`
capture), or no-op. -/
def scanLineRest (st : ScanState) (i : Nat) (line : List Char) : ScanState :=
  if matchDocblockStart line then
    { st with insideDocblock := true,
              block := { st.block with raw := st.block.raw ++ line ++ ['\n'], line := i + 1 } }
  else if st.insideDocblock then
    let bl := { st.block with raw := st.block.raw ++ line ++ ['\n'] }
    { st with block := { bl with text := bl.text ++ stripDocStar line ++ ['\n'] } }
  else if matchMultiStart line then
    { st with insideMultiBlock := true,
              block := { st.block with raw := st.block.raw ++ line ++ ['\n'], line := i + 1 } }
  else if st.insideMultiBlock then
    let bl := { st.block with raw := st.block.raw ++ line ++ ['\n'] }
    match st.indentAmount with
    | none =>
      if line = [] then { st with block := bl }
      else
        let ind := line.takeWhile isWsChar
        { st with indentAmount := some ind,
                  block := { bl with text := bl.text ++ stripIndent ind line ++ ['\n'] } }
    | some ind =>
      { st with block := { bl with text := bl.text ++ stripIndent ind line ++ ['\n'] } }
  else st

/-- One iteration of the `for` loop of `findCommentBlocks` (parse.js
lines 208-265) on the line of index `i`: strip trailing whitespace,
finalize the current block when its end is reached (skipping the rest of
the iteration unless the end of a single-line block was detected), then
run the branch chain. -/
def scanLine (st0 : ScanState) (i : Nat) (line0 : List Char) : ScanState :=
  let line := dropTrailingWs line0
  let fin := st0.insideSingleBlock ||
    ((st0.insideMultiBlock || st0.insideDocblock) && matchMultiFinish line)
  let done := fin && !st0.insideSingleBlock
  let st :=
    if fin then
      { blocks := st0.blocks ++ [{ st0.block with text := trimNlEdges st0.block.text }],
        block := ⟨0, [], []⟩, indentAmount := none,
        insideSingleBlock := false, insideMultiBlock := false, insideDocblock := false }
    else st0
  if done then st else scanLineRest st i line

/-- The whole `for` loop of `findCommentBlocks`, starting at line index
`i`. -/
def scanLines (st : ScanState) (i : Nat) : List (List Char) → ScanState
  | [] => st
  | l :: ls => scanLines (scanLine st i l) (i + 1) ls

/-- `findCommentBlocks` (parse.js lines 182-268): normalize line endings,
append a synthetic trailing newline, split into lines and run the
scanner. -/
def findCommentBlocks (input : String) : List Block :=
  let inp := normalizeNewlines input.data ++ ['\n']
  (scanLines initState 0 (splitLines inp)).blocks

/-! ### The modifier / parameter mini-grammar (parse.js lines 279-337) -/

/-- After at least one `\s` has been consumed: can `\s*\-\s` match here?
Backtracking of the greedy `\s+` reduces to skipping the whitespace run and
requiring `-` followed by one whitespace character. -/
def dashAfterWs : List Char → Bool
  | [] => false
  | c :: rest =>
    if isWsChar c then dashAfterWs rest
    else c = '-' && (match rest with | d :: _ => isWsChar d | [] => false)

/-- Does a match of `/\s+\-\s+/` start at the head of the list? -/
def dashSepAt : List Char → Bool
  | [] => false
  | c :: rest => isWsChar c && dashAfterWs rest

/-- `entry.split(/\s+\-\s+/, 1)[0]` (parse.js lines 282, 315): the prefix
of `entry` before the leftmost match of the separator (the whole string
when there is none). -/
def takeUntilDashSep : List Char → List Char
  | [] => []
  | c :: rest => if dashSepAt (c :: rest) then [] else c :: takeUntilDashSep rest

/-- `str.replace(pat, '', 1)` with a plain-string pattern (parse.js
lines 283, 317): remove the leftmost occurrence of `pat` (no change when
absent; the extra argument is ignored by JavaScript). -/
def removeFirstOcc (pat : List Char) : List Char → List Char
  | [] => []
  | c :: rest =>
    if pat.isPrefixOf (c :: rest) then (c :: rest).drop pat.length
    else c :: removeFirstOcc pat rest

/-- Tail of an anchored `/^\s+\-\s+/` match after the `-`: requires one
whitespace character, then the greedy `\s+` consumes the whole run. -/
def dashTailWs : List Char → Option (List Char)
  | [] => none
  | c :: rest => if isWsChar c then some (rest.dropWhile isWsChar) else none

/-- Middle of an anchored `/^\s+\-\s+/` match: skip the whitespace run,
then require `-` and its trailing whitespace. -/
def dashAfterWsStrip : List Char → Option (List Char)
  | [] => none
  | c :: rest =>
    if isWsChar c then dashAfterWsStrip rest
    else if c = '-' then dashTailWs rest else none

/-- `str.replace(/^\s+\-\s+/, '')` (parse.js lines 283, 317): strip a
leading whitespace-dash-whitespace separator when present. -/
def stripDashSepPrefix (l : List Char) : List Char :=
  match l with
  | [] => []
  | c :: rest =>
    if isWsChar c then
      match dashAfterWsStrip rest with
      | some r => r
      | none => l
    else l

/-- Tail of a `/\s+=\s+/` match after the `=`: one whitespace character,
then the greedy `\s+` consumes the run; returns the remainder. -/
def eqTailWs : List Char → Option (List Char)
  | [] => none
  | c :: rest => if isWsChar c then some (rest.dropWhile isWsChar) else none

/-- Middle of a `/\s+=\s+/` match: skip whitespace, require `=` and its
trailing whitespace. -/
def eqAfterWs : List Char → Option (List Char)
  | [] => none
  | c :: rest =>
    if isWsChar c then eqAfterWs rest
    else if c = '=' then eqTailWs rest else none

/-- Does a match of `/\s+=\s+/` start at the head of the list? If so,
return the remainder after the matched region. -/
def eqSepMatch : List Char → Option (List Char)
  | [] => none
  | c :: rest => if isWsChar c then eqAfterWs rest else none

/-- `/\s+=\s+/.test(parameter)` (parse.js line 320). -/
def hasEqSep : List Char → Bool
  | [] => false
  | c :: rest => (eqSepMatch (c :: rest)).isSome || hasEqSep rest

/-- Fuel-driven worker for `parameter.split(/\s+=\s+/)`; the fuel is the
length of the list, which suffices because every step consumes at least
one character. -/
def splitEqSepGo : Nat → List Char → List Char → List (List Char)
  | 0, acc, l => [acc.reverse ++ l]
  | _ + 1, acc, [] => [acc.reverse]
  | fuel + 1, acc, c :: rest =>
    match eqSepMatch (c :: rest) with
    | some rem => acc.reverse :: splitEqSepGo fuel [] rem
    | none => splitEqSepGo fuel (c :: acc) rest

/-- `parameter.split(/\s+=\s+/)` (parse.js line 321). -/
def splitEqSep (l : List Char) : List (List Char) :=
  splitEqSepGo l.length [] l

/-- `description.replace(/\n/g, ' ')` (parse.js line 287). -/
def nlToSpace (l : List Char) : List Char :=
  l.map fun c => if c = '\n' then ' ' else c

/-- Character class of `[\s|\t]` (parse.js line 288): whitespace or a
literal `|` (inside a character class the `|` is not alternation). -/
def isFoldChar (c : Char) : Bool :=
  isWsChar c || c = '|'

/-- Fuel-driven worker for `description.replace(/([\s|\t]{2,})/g, ' ')`:
every maximal run of two or more `[\s|\t]` characters becomes a single
space. -/
def collapseRunsGo : Nat → List Char → List Char
  | 0, l => l
  | _ + 1, [] => []
  | fuel + 1, c :: rest =>
    if isFoldChar c then
      match rest with
      | d :: _ =>
        if isFoldChar d then ' ' :: collapseRunsGo fuel (rest.dropWhile isFoldChar)
        else c :: collapseRunsGo fuel rest
      | [] => [c]
    else c :: collapseRunsGo fuel rest

/-- `description.replace(/([\s|\t]{2,})/g, ' ')` (parse.js line 288). -/
def collapseRuns (l : List Char) : List Char :=
  collapseRunsGo l.length l

/-- Parsing options of `parse()` after defaulting (parse.js lines 40-47). -/
structure Options where
  markdown : Bool
  header : Bool
  custom : List String
deriving DecidableEq, Repr

/-- A modifier entity (the JSON equivalent of `KssModifier`). -/
structure Modifier where
  name : String
  description : String
deriving DecidableEq, Repr

/-- A parameter entity (the JSON equivalent of `KssParameter`). -/
structure Parameter where
  name : String
  defaultValue : String
  description : String
deriving DecidableEq, Repr

/-- `createModifiers` (parse.js lines 279-301). `mdInline` is the
`marked(description, renderer: inlineRenderer)` collaborator. -/
def createModifiers (mdInline : String → String) (rawModifiers : List String)
    (options : Options) : List Modifier :=
  rawModifiers.map fun entry =>
    let modifier : List Char := takeUntilDashSep entry.data
    let description : List Char := stripDashSepPrefix (removeFirstOcc modifier entry.data)
    let description :=
      if description.contains '\n' then collapseRuns (nlToSpace description)
      else description
    let description :=
      if options.markdown then (mdInline ⟨description⟩).data else description
    { name := ⟨modifier⟩, description := ⟨description⟩ }

/-- `createParameters` (parse.js lines 312-337). Unlike `createModifiers`
it performs no multi-line folding of the description. -/
def createParameters (mdInline : String → String) (rawParameters : List String)
    (options : Options) : List Parameter :=
  rawParameters.map fun entry =>
    let parameter : List Char := takeUntilDashSep entry.data
    let defaultValue : List Char := []
    let description : List Char := stripDashSepPrefix (removeFirstOcc parameter entry.data)
    let pd :=
      if hasEqSep parameter then
        let tokens := splitEqSep parameter
        (tokens.getD 0 [], tokens.getD 1 [])
      else (parameter, defaultValue)
    let description :=
      if options.markdown then (mdInline ⟨description⟩).data else description
    { name := ⟨pd.1⟩, defaultValue := ⟨pd.2⟩, description := ⟨description⟩ }

/-! ### JavaScript numeric coercion used by the weight computation
(parse.js line 147: `isNaN(tags.weight) ? 0 : parseInt(tags.weight)`) -/

/-- Optional exponent part of a decimal literal followed by end of input:
`e`/`E`, an optional sign, then one or more digits. -/
def expOk : List Char → Bool
  | [] => true
  | c :: rest =>
    if c = 'e' || c = 'E' then
      let rest' := match rest with
        | s :: r => if s = '+' || s = '-' then r else s :: r
        | [] => []
      !rest'.isEmpty && rest'.all isDecDigit
    else false

/-- Recognizer of ECMAScript `StrUnsignedDecimalLiteral` (after an
optional sign): `Infinity`, `digits[.digits][exp]`, or `.digits[exp]`. -/
def unsignedDecOk (l : List Char) : Bool :=
  if l = "Infinity".data then true
  else
    let ds := l.takeWhile isDecDigit
    let rest := l.dropWhile isDecDigit
    match rest with
    | '.' :: rest2 =>
      let ds2 := rest2.takeWhile isDecDigit
      let rest3 := rest2.dropWhile isDecDigit
      (!ds.isEmpty || !ds2.isEmpty) && expOk rest3
    | _ => !ds.isEmpty && expOk rest

/-- `isNaN(s)` for a string argument: `Number(s)` is NaN. The ECMAScript
string-to-number coercion trims whitespace, maps the empty string to `0`,
and otherwise recognizes a signed decimal literal, `Infinity`, or an
unsigned `0x`/`0o`/`0b` literal. -/
def jsStrIsNaN (s : String) : Bool :=
  let t := ((s.data.dropWhile isWsChar).reverse.dropWhile isWsChar).reverse
  match t with
  | [] => false
  | '0' :: x :: rest =>
    if x = 'x' || x = 'X' then !(!rest.isEmpty && rest.all isHexDigit)
    else if x = 'o' || x = 'O' then !(!rest.isEmpty && rest.all isOctDigit)
    else if x = 'b' || x = 'B' then !(!rest.isEmpty && rest.all isBinDigit)
    else !unsignedDecOk t
  | c :: rest =>
    if c = '+' || c = '-' then !unsignedDecOk rest
    else !unsignedDecOk t

/-- Numeric value of a digit character (hex letters included). -/
def digitVal (c : Char) : Nat :=
  if isDecDigit c then c.toNat - '0'.toNat
  else if 'a' ≤ c && c ≤ 'f' then c.toNat - 'a'.toNat + 10
  else if 'A' ≤ c && c ≤ 'F' then c.toNat - 'A'.toNat + 10
  else 0

/-- Value of a digit string in the given base. -/
def natOfDigits (base : Nat) (l : List Char) : Nat :=
  l.foldl (fun acc c => acc * base + digitVal c) 0

/-- `parseInt(s)` (radix argument omitted): skip leading whitespace, read
an optional sign, detect a `0x`/`0X` prefix (radix 16, else 10), then take
the longest digit prefix; no digits means `NaN`, modelled as `none`. -/
def jsParseInt (s : String) : Option Int :=
  let l := s.data.dropWhile isWsChar
  let sl : Int × List Char :=
    match l with
    | '-' :: rest => (-1, rest)
    | '+' :: rest => (1, rest)
    | _ => (1, l)
  let hl : Bool × List Char :=
    match sl.2 with
    | '0' :: x :: rest =>
      if x = 'x' || x = 'X' then (true, rest) else (false, '0' :: x :: rest)
    | _ => (false, sl.2)
  let digits := if hl.1 then hl.2.takeWhile isHexDigit else hl.2.takeWhile isDecDigit
  if digits.isEmpty then none
  else some (sl.1 * (natOfDigits (if hl.1 then 16 else 10) digits : Int))

/-! ### Section building (`parse`, parse.js lines 38-172)

The temporary `newSection` JavaScript object is modelled as an ordered
association list from field names to values, so that the dynamic
`Object.assign` merge of custom properties (lines 153-164) keeps its
JavaScript semantics: assigning an existing key overwrites it in place,
assigning a fresh key appends it. -/

/-- A tag value as produced by the `docblock-parser` collaborator: a
single string, or a list of strings for a repeated tag. -/
inductive TagVal where
  | one (s : String)
  | many (l : List String)
deriving DecidableEq, Repr

/-- Result of `docblockParser.parse(comment.raw)`: lead text plus a
tag-name to value map (a JavaScript object, so keys are unique; modelled
as an association list read through its first binding). -/
structure CommentObject where
  text : String
  tags : List (String × TagVal)
deriving DecidableEq, Repr

/-- `sourceFile` record of a section (parse.js lines 91-96). -/
structure SourceFile where
  name : String
  base : String
  path : String
  line : Nat
deriving DecidableEq, Repr

/-- The JavaScript values that can appear in a `newSection` field. `NaN`
is modelled as `num none`. -/
inductive JsVal where
  | str (s : String)
  | strs (l : List String)
  | num (n : Option Int)
  | bool (b : Bool)
  | mods (l : List Modifier)
  | params (l : List Parameter)
  | src (f : SourceFile)
deriving DecidableEq, Repr

/-- A `newSection` JavaScript object: ordered field list. -/
abbrev SectionMap := List (String × JsVal)

/-- Property read on a section object. -/
def getField (m : SectionMap) (k : String) : Option JsVal :=
  (m.find? fun p => p.1 == k).map (·.2)

/-- Property write on a JavaScript object: overwrite the existing binding
in place when the key exists, append a new binding otherwise. -/
def setField : SectionMap → String → JsVal → SectionMap
  | [], k, v => [(k, v)]
  | p :: rest, k, v => if p.1 == k then (k, v) :: rest else p :: setField rest k v

/-- Lookup in the tag map (`commentObject.tags.name`). -/
def tagLookup (tags : List (String × TagVal)) (k : String) : Option TagVal :=
  (tags.find? fun p => p.1 == k).map (·.2)

/-- JavaScript truthiness of a tag value: the empty string is falsy,
every array is truthy. -/
def tagTruthy : TagVal → Bool
  | .one s => !(s == "")
  | .many _ => true

/-- A tag value as a section field value. -/
def tagJsVal : TagVal → JsVal
  | .one s => .str s
  | .many l => .strs l

/-- `[].concat(value)`: a single string becomes a one-element list, an
array contributes its elements (parse.js lines 130, 138). -/
def tagValList : TagVal → List String
  | .one s => [s]
  | .many l => l

/-- JavaScript string coercion of a tag value (an array joins with `,`),
as performed by `isNaN` / `parseInt` on a non-string argument. -/
def tagValString : TagVal → String
  | .one s => s
  | .many l => String.intercalate "," l

/-- `tags.name || ''` as a section field value. -/
def tagOrEmpty : Option TagVal → JsVal
  | some v => if tagTruthy v then tagJsVal v else .str ""
  | none => .str ""

/-- JavaScript truthiness of a section field value (`NaN` and `0` are
falsy numbers, every object is truthy). -/
def jsTruthy : JsVal → Bool
  | .str s => !(s == "")
  | .strs _ => true
  | .num n => match n with | none => false | some i => !(i == 0)
  | .bool b => b
  | .mods _ => true
  | .params _ => true
  | .src _ => true

/-- String coercion of a section field value where the source hands it to
`marked` (only the string and string-list shapes are reachable there). -/
def jsValString : JsVal → String
  | .str s => s
  | .strs l => String.intercalate "," l
  | _ => ""

/-- A Vinyl-like file object (`{base, path, contents}`); plain string
inputs have neither `base` nor `path`. -/
structure KssFile where
  path : Option String
  base : Option String
  contents : String
deriving DecidableEq, Repr

/-- `x ? x : ''` on a possibly missing string property. -/
def strOrEmpty : Option String → String
  | some s => if s == "" then "" else s
  | none => ""

/-- JavaScript truthiness of a possibly missing string property. -/
def strTruthy : Option String → Bool
  | some s => !(s == "")
  | none => false

/-- The external collaborators consumed by `parse`:
`docblock-parser`, `marked` in block mode, `marked` with the
non-wrapping inline renderer, and
`path.relative(base, path).replace(backslash, '/')`. -/
structure Collab where
  dbParse : String → CommentObject
  mdBlock : String → String
  mdInline : String → String
  relative : String → String → String

/-- `line.replace(/\n/g, ' ')` on a string (parse.js line 115). -/
def nlToSpaceStr (s : String) : String :=
  ⟨nlToSpace s.data⟩

/-- The custom-property merge (parse.js lines 153-164): for each declared
custom name, `custom[name] = tags[name] || ''`, then `Object.assign` onto
the section. -/
def mergeCustom (options : Options) (tags : List (String × TagVal))
    (ns : SectionMap) : SectionMap :=
  options.custom.foldl (fun m name => setField m name (tagOrEmpty (tagLookup tags name))) ns

/-- The body of the inner comment loop of `parse` (parse.js lines 80-167):
build the candidate section for one comment block, returning `none` when
the block carries no truthy `styleguide` tag (line 108's `continue`). -/
def buildSection (options : Options) (cb : Collab) (file : KssFile)
    (comment : Block) (commentObject : CommentObject) : Option SectionMap :=
  let ns : SectionMap :=
    [("raw", .str ⟨comment.raw⟩),
     ("header", .str ""),
     ("description", .str ""),
     ("modifiers", .mods []),
     ("parameters", .params []),
     ("markup", .str ""),
     ("sourceFile", .src { name := strOrEmpty file.path, base := strOrEmpty file.base,
                           path := strOrEmpty file.path, line := comment.line })]
  let ns :=
    if strTruthy file.base then
      setField ns "sourceFile"
        (.src { name := cb.relative (strOrEmpty file.base) (strOrEmpty file.path),
                base := strOrEmpty file.base, path := strOrEmpty file.path,
                line := comment.line })
    else ns
  let reference : JsVal :=
    match tagLookup commentObject.tags "styleguide" with
    | some v => tagJsVal v
    | none => .bool false
  let ns := setField ns "reference" reference
  if !jsTruthy reference then none
  else
    let ns :=
      if options.header then setField ns "header" (.str (nlToSpaceStr commentObject.text))
      else ns
    let descriptionVal := tagOrEmpty (tagLookup commentObject.tags "description")
    let descriptionVal :=
      if options.markdown then .str (cb.mdBlock (jsValString descriptionVal))
      else descriptionVal
    let ns := setField ns "description" descriptionVal
    let ns :=
      match tagLookup commentObject.tags "modifier" with
      | some v =>
        if tagTruthy v then
          setField ns "modifiers" (.mods (createModifiers cb.mdInline (tagValList v) options))
        else ns
      | none => ns
    let ns :=
      match tagLookup commentObject.tags "param" with
      | some v =>
        if tagTruthy v then
          setField ns "parameters" (.params (createParameters cb.mdInline (tagValList v) options))
        else ns
      | none => ns
    let ns := setField ns "markup" (tagOrEmpty (tagLookup commentObject.tags "markup"))
    let weight : Option Int :=
      match tagLookup commentObject.tags "weight" with
      | none => some 0
      | some v =>
        if jsStrIsNaN (tagValString v) then some 0 else jsParseInt (tagValString v)
    let ns := setField ns "weight" (.num weight)
    let ns := setField ns "deprecated" (.bool (tagLookup commentObject.tags "deprecated").isSome)
    let ns := setField ns "experimental" (.bool (tagLookup commentObject.tags "experimental").isSome)
    some (mergeCustom options commentObject.tags ns)

/-- The plain data handed to the `KssStyleGuide` constructor
(parse.js lines 51-54). -/
structure StyleGuideData where
  files : List (Option String)
  sections : List SectionMap
deriving Repr

/-- Modelled from the spec: the `KssStyleGuide` aggregate constructor
(`lib/kss_style_guide.js`) is not part of the parsing core under
verification; per spec section 4.5 it stores the file list and the
sections retaining original parse order (re-sorting is a presentation
concern outside this core), so it is modelled as the identity on the
collected data. -/
def KssStyleGuide (data : StyleGuideData) : StyleGuideData := data

/-- The options argument before defaulting (parse.js lines 40-47). -/
structure OptionsIn where
  markdown : Option Bool
  header : Option Bool
  custom : Option (List String)
deriving DecidableEq, Repr

/-- Option defaulting of parse.js lines 40-47: `markdown` and `header`
default to `true`, `custom` to the empty list. -/
def defaultedOptions (o : OptionsIn) : Options :=
  { markdown := o.markdown.getD true, header := o.header.getD true,
    custom := o.custom.getD [] }

/-- One element of an array input to `parse`: a raw string or a file
object (parse.js lines 63-72). -/
abbrev ParseEntry := Sum String KssFile

/-- Massaging of one input entry into a file object. -/
def entryFile : ParseEntry → KssFile
  | .inl s => { path := none, base := none, contents := s }
  | .inr f => f

/-- The tail of the inner comment loop of `parse`: push the built section
onto the accumulated list (parse.js line 167), or leave the list
unchanged when the block was discarded (the `continue` of line 109). -/
def pushSection (acc : List SectionMap) (s : Option SectionMap) : List SectionMap :=
  match s with
  | some sec => acc ++ [sec]
  | none => acc

/-- `parse(input, options)` (parse.js lines 38-172) for an array input; a
single-string input corresponds to the one-element list `[Sum.inl s]`. -/
def parse (cb : Collab) (input : List ParseEntry) (optionsIn : OptionsIn) :
    StyleGuideData :=
  let options := defaultedOptions optionsIn
  let guideFiles := input.filterMap fun e =>
    match e with
    | .inl _ => none
    | .inr f => some f.path
  let files := input.map entryFile
  let sections := files.foldl (fun acc file =>
    (findCommentBlocks file.contents).foldl (fun acc comment =>
      pushSection acc (buildSection options cb file comment (cb.dbParse ⟨comment.raw⟩))) acc) []
  KssStyleGuide { files := guideFiles, sections := sections }

/-- The ordered list of sections contributed by a single file: one
candidate per comment block, in block order, dropping the blocks without
a reference tag. Used to state the order-preservation property of
`parse`. -/
def fileSections (cb : Collab) (options : Options) (file : KssFile) : List SectionMap :=
  (findCommentBlocks file.contents).filterMap fun comment =>
    buildSection options cb file comment (cb.dbParse ⟨comment.raw⟩)

/-! ### Field-map lemmas -/

theorem getField_setField (m : SectionMap) (k k' : String) (v : JsVal) :
    getField (setField m k v) k' = if k == k' then some v else getField m k' := by
  induction m with
  | nil =>
    by_cases hk : k = k'
    · subst hk
      simp [setField, getField, List.find?]
    · have hb : (k == k') = false := beq_eq_false_iff_ne.mpr hk
      simp [setField, getField, List.find?, hb]
  | cons p rest ih =>
    by_cases hp : p.1 = k
    · have hpb : (p.1 == k) = true := beq_iff_eq.mpr hp
      by_cases hk : k = k'
      · subst hk
        simp [setField, getField, List.find?, hpb]
      · have hb : (k == k') = false := beq_eq_false_iff_ne.mpr hk
        have hpb' : (p.1 == k') = false := beq_eq_false_iff_ne.mpr (hp ▸ hk)
        simp [setField, getField, List.find?, hpb, hb, hpb']
    · have hpb : (p.1 == k) = false := beq_eq_false_iff_ne.mpr hp
      by_cases hp' : p.1 = k'
      · have hpb' : (p.1 == k') = true := beq_iff_eq.mpr hp'
        have hb : (k == k') = false := by
          refine beq_eq_false_iff_ne.mpr fun hkk => hp (hkk ▸ hp')
        simp [setField, getField, List.find?, hpb, hpb', hb]
      · have hpb' : (p.1 == k') = false := beq_eq_false_iff_ne.mpr hp'
        simpa [setField, getField, List.find?, hpb, hpb'] using ih

theorem getField_mergeList (names : List String) (tags : List (String × TagVal))
    (ns : SectionMap) (c : String) :
    getField (names.foldl (fun m name => setField m name (tagOrEmpty (tagLookup tags name))) ns) c
      = if c ∈ names then some (tagOrEmpty (tagLookup tags c)) else getField ns c := by
  induction names generalizing ns with
  | nil => simp
  | cons n rest ih =>
    simp only [List.foldl_cons, ih, List.mem_cons]
    by_cases hr : c ∈ rest
    · simp [hr]
    · by_cases hn : c = n
      · subst hn
        simp [hr, getField_setField]
      · have hb : (n == c) = false := beq_eq_false_iff_ne.mpr (Ne.symm hn)
        simp [hr, hn, getField_setField, hb]

/-- A concrete instantiation of the external collaborators, used to
evaluate the embedding at specific inputs: the tag splitter returns no
tags, both Markdown modes are the identity, and relative-path computation
returns the empty string. -/
def trivialCollab : Collab :=
  { dbParse := fun _ => ⟨"", []⟩, mdBlock := id, mdInline := id,
    relative := fun _ _ => "" }

/-- C4: a comment block whose tag map lacks the `styleguide` reference tag
produces no section at all: `buildSection` returns `none` (the `continue`
of parse.js line 109), so the enclosing loop of `parse` appends nothing
for that block and raises no error. -/
theorem c4_missing_reference_discards (options : Options) (cb : Collab)
    (file : KssFile) (comment : Block) (co : CommentObject)
    (h : tagLookup co.tags "styleguide" = none) :
    buildSection options cb file comment co = none := by
  unfold buildSection
  rw [h]
  simp [jsTruthy]

/-- Witness for `c4_missing_reference_discards` at a concrete block whose
tag map is empty. -/
theorem c4_missing_reference_discards_witness :
    buildSection ⟨true, true, []⟩ trivialCollab ⟨none, none, ""⟩ ⟨1, [], []⟩ ⟨"", []⟩
      = none :=
  c4_missing_reference_discards ⟨true, true, []⟩ trivialCollab ⟨none, none, ""⟩
    ⟨1, [], []⟩ ⟨"", []⟩ rfl

/-- Every section emitted by `buildSection` is the result of applying the
custom-property merge to the internally built field map. -/
theorem buildSection_shape (options : Options) (cb : Collab) (file : KssFile)
    (comment : Block) (co : CommentObject) :
    buildSection options cb file comment co = none
    ∨ ∃ ns0, buildSection options cb file comment co = some (mergeCustom options co.tags ns0) := by
  unfold buildSection
  by_cases hj : jsTruthy (match tagLookup co.tags "styleguide" with
      | some v => tagJsVal v
      | none => JsVal.bool false) = true
  · simp only [hj, Bool.not_true, Bool.false_eq_true, if_false]
    exact Or.inr ⟨_, rfl⟩
  · rw [Bool.not_eq_true] at hj
    simp [hj]

/-- C10: custom properties are merged flat onto the section object under
their literal names. A declared name ends up bound to the tag's value (or
the empty string when the tag is absent or empty), overwriting any
built-in field of the same name; names not declared as custom are left
unchanged by the merge; and every section emitted by `buildSection` is the
result of this merge. -/
theorem c10_custom_merge_flat (options : Options) (tags : List (String × TagVal))
    (ns : SectionMap) (c : String) :
    (c ∈ options.custom →
      getField (mergeCustom options tags ns) c = some (tagOrEmpty (tagLookup tags c)))
    ∧ (c ∉ options.custom →
      getField (mergeCustom options tags ns) c = getField ns c)
    ∧ (∀ cb file comment co sec, buildSection options cb file comment co = some sec →
        c ∈ options.custom → getField sec c = some (tagOrEmpty (tagLookup co.tags c))) := by
  refine ⟨fun hc => ?_, fun hc => ?_, fun cb file comment co sec hsec hc => ?_⟩
  · unfold mergeCustom
    rw [getField_mergeList]
    simp [hc]
  · unfold mergeCustom
    rw [getField_mergeList]
    simp [hc]
  · rcases buildSection_shape options cb file comment co with hnone | ⟨ns0, hmerge⟩
    · rw [hnone] at hsec
      exact absurd hsec (by simp)
    · rw [hmerge] at hsec
      have h2 : sec = mergeCustom options co.tags ns0 := (Option.some_inj.mp hsec).symm
      rw [h2]
      unfold mergeCustom
      rw [getField_mergeList]
      simp [hc]

/-- Witness for `c10_custom_merge_flat`: with `custom = ["weight"]` and no
`weight` tag, the merge overwrites the built-in numeric `weight` field
with the empty string, and leaves an undeclared field alone. -/
theorem c10_custom_merge_flat_witness :
    getField (mergeCustom ⟨true, true, ["weight"]⟩ [] [("weight", .num (some 5))]) "weight"
        = some (.str "")
    ∧ getField (mergeCustom ⟨true, true, ["weight"]⟩ [] [("markup", .str "m")]) "markup"
        = some (.str "m") :=
  ⟨(c10_custom_merge_flat ⟨true, true, ["weight"]⟩ [] [("weight", .num (some 5))] "weight").1
      (by decide),
   ((c10_custom_merge_flat ⟨true, true, ["weight"]⟩ [] [("markup", .str "m")] "markup").2.1
      (by decide)).trans (by decide)⟩

/-- C1: evaluation of `findCommentBlocks` at an input that ends inside a
still-open docblock. The scanner emits no block at all: the synthetic
trailing blank line does not match the close-delimiter pattern
`/^\s*\*\/\s*$/`, and `insideSingleBlock` — the only flag that finalizes a
block without a close match — is never set anywhere in the function, so
the open block is silently dropped, contrary to the stated capture
behaviour and to the source's own comment on the synthetic line. -/
theorem c1_unterminated_block_dropped :
    findCommentBlocks "/**\n * @styleguide x" = [] := by decide

/-- Counterexample to C2 as stated: a multi-line comment whose interior
lines carry no `*` marker. The claimed `indentAmount` stripping would
de-indent the text to `"hello\n  world"`, but the block's text keeps the
full indentation, because the open line is consumed by the docblock
branch (the `multiStart` and `docblockStart` patterns are identical) and
the docblock text rule `/^\s*\*\s?/` does not touch lines without a
star. -/
theorem c2_counterexample :
    (findCommentBlocks "/**\n    hello\n      world\n*/").map (fun b => b.text)
        = ["    hello\n      world".data]
    ∧ "    hello\n      world".data ≠ "hello\n  world".data := by
  constructor
  · decide
  · decide

/-- Counterexample to C5 as stated: for the weight tag value `""` the
section's weight is `NaN` (modelled `num none`), not `0` and not any
integer parse — JavaScript's `isNaN("")` is `false` (the empty string
coerces to `0`), so the code takes the `parseInt("")` branch, which
returns `NaN`. -/
theorem c5_counterexample :
    (buildSection ⟨true, true, []⟩ trivialCollab ⟨none, none, ""⟩ ⟨1, [], []⟩
        ⟨"", [("styleguide", .one "x"), ("weight", .one "")]⟩).map
          (fun sec => getField sec "weight")
      = some (some (.num none))
    ∧ JsVal.num none ≠ JsVal.num (some 0) := by
  constructor
  · decide
  · decide

/-- C3: a comment block whose tag map holds only the reference tag
`styleguide` with a non-empty value and whose lead text is empty yields
exactly one section: reference equal to the tag value, empty description,
no modifiers, no parameters, weight `0`, and `deprecated` and
`experimental` both `false`. (`marked` maps the empty string to the empty
string, which is the `hmd` hypothesis on the collaborator.) -/
theorem c3_minimal_section (options : Options) (cb : Collab) (file : KssFile)
    (comment : Block) (v : String) (hcustom : options.custom = [])
    (hmd : cb.mdBlock "" = "") (hv : v ≠ "") :
    ∃ sec, buildSection options cb file comment ⟨"", [("styleguide", .one v)]⟩ = some sec
      ∧ getField sec "reference" = some (.str v)
      ∧ getField sec "description" = some (.str "")
      ∧ getField sec "modifiers" = some (.mods [])
      ∧ getField sec "parameters" = some (.params [])
      ∧ getField sec "weight" = some (.num (some 0))
      ∧ getField sec "deprecated" = some (.bool false)
      ∧ getField sec "experimental" = some (.bool false) := by
  have hvb : (v == "") = false := beq_eq_false_iff_ne.mpr hv
  have h1 : tagLookup [("styleguide", TagVal.one v)] "styleguide" = some (.one v) := rfl
  have h2 : tagLookup [("styleguide", TagVal.one v)] "description" = none := rfl
  have h3 : tagLookup [("styleguide", TagVal.one v)] "modifier" = none := rfl
  have h4 : tagLookup [("styleguide", TagVal.one v)] "param" = none := rfl
  have h5 : tagLookup [("styleguide", TagVal.one v)] "markup" = none := rfl
  have h6 : tagLookup [("styleguide", TagVal.one v)] "weight" = none := rfl
  have h7 : tagLookup [("styleguide", TagVal.one v)] "deprecated" = none := rfl
  have h8 : tagLookup [("styleguide", TagVal.one v)] "experimental" = none := rfl
  unfold buildSection
  simp only [h1, h2, h3, h4, h5, h6, h7, h8, tagJsVal, jsTruthy, hvb, Bool.not_false,
    Bool.false_eq_true, if_false, mergeCustom, hcustom, List.foldl_nil, tagOrEmpty,
    jsValString, hmd]
  refine ⟨_, rfl, ?_⟩
  cases hB : strTruthy file.base <;> cases hH : options.header <;>
    cases hM : options.markdown <;>
      simp [hB, hH, hM, getField_setField, getField, nlToSpaceStr, List.find?]

/-- Witness for `c3_minimal_section` at the concrete tag value `"x.y.z"`
with default options and the trivial collaborators. -/
theorem c3_minimal_section_witness :
    ∃ sec, buildSection ⟨true, true, []⟩ trivialCollab ⟨none, none, ""⟩ ⟨1, [], []⟩
        ⟨"", [("styleguide", .one "x.y.z")]⟩ = some sec
      ∧ getField sec "reference" = some (.str "x.y.z")
      ∧ getField sec "description" = some (.str "")
      ∧ getField sec "modifiers" = some (.mods [])
      ∧ getField sec "parameters" = some (.params [])
      ∧ getField sec "weight" = some (.num (some 0))
      ∧ getField sec "deprecated" = some (.bool false)
      ∧ getField sec "experimental" = some (.bool false) :=
  c3_minimal_section ⟨true, true, []⟩ trivialCollab ⟨none, none, ""⟩ ⟨1, [], []⟩
    "x.y.z" rfl rfl (by decide)

/-- C5 as amended: for a qualifying block carrying a weight tag with value
`s`, the section's weight is `0` when `isNaN(s)` holds under JavaScript
number coercion, and `parseInt(s)` otherwise — which is `NaN` rather than
`0` when `s` has no parseable leading digits (for example the empty
string, which coerces to the number `0`, so `isNaN` is false). An absent
weight tag gives `0` (see `c3_minimal_section`), `"8"` gives `8`, and
`"invalid"` gives `0`; the computation is total, hence never raises. -/
theorem c5_weight_amended (options : Options) (cb : Collab) (file : KssFile)
    (comment : Block) (txt v s : String) (hcustom : options.custom = [])
    (hv : v ≠ "") :
    (∃ sec, buildSection options cb file comment
        ⟨txt, [("styleguide", .one v), ("weight", .one s)]⟩ = some sec
      ∧ getField sec "weight"
          = some (.num (if jsStrIsNaN s then some 0 else jsParseInt s)))
    ∧ (jsStrIsNaN "invalid" = true ∧ jsParseInt "8" = some 8 ∧ jsStrIsNaN "8" = false)
    ∧ (jsStrIsNaN "" = false ∧ jsParseInt "" = none) := by
  have hvb : (v == "") = false := beq_eq_false_iff_ne.mpr hv
  have h1 : tagLookup [("styleguide", TagVal.one v), ("weight", TagVal.one s)] "styleguide"
      = some (.one v) := rfl
  have h6 : tagLookup [("styleguide", TagVal.one v), ("weight", TagVal.one s)] "weight"
      = some (.one s) := rfl
  refine ⟨?_, by decide, by decide⟩
  unfold buildSection
  simp only [h1, h6, tagJsVal, jsTruthy, hvb, Bool.not_false, Bool.false_eq_true, if_false,
    mergeCustom, hcustom, List.foldl_nil, tagValString]
  refine ⟨_, rfl, ?_⟩
  cases hB : strTruthy file.base <;> cases hH : options.header <;>
    cases hM : options.markdown <;>
      simp [hB, hH, hM, getField_setField, getField, List.find?]

/-- Witness for `c5_weight_amended` at the weight value `"8"`, whose
resulting section weight is `8`. -/
theorem c5_weight_amended_witness :
    ((∃ sec, buildSection ⟨true, true, []⟩ trivialCollab ⟨none, none, ""⟩ ⟨1, [], []⟩
        ⟨"", [("styleguide", .one "x"), ("weight", .one "8")]⟩ = some sec
      ∧ getField sec "weight"
          = some (.num (if jsStrIsNaN "8" then some 0 else jsParseInt "8")))
    ∧ (jsStrIsNaN "invalid" = true ∧ jsParseInt "8" = some 8 ∧ jsStrIsNaN "8" = false)
    ∧ (jsStrIsNaN "" = false ∧ jsParseInt "" = none))
    ∧ (if jsStrIsNaN "8" then some (0 : Int) else jsParseInt "8") = some 8 :=
  ⟨c5_weight_amended ⟨true, true, []⟩ trivialCollab ⟨none, none, ""⟩ ⟨1, [], []⟩
      "" "x" "8" rfl (by decide), by decide⟩

/-! ### Lemmas about the mini-grammar scanners -/

theorem dashSepAt_cons_nonws (c : Char) (l : List Char) (h : isWsChar c = false) :
    dashSepAt (c :: l) = false := by
  simp [dashSepAt, h]

theorem takeUntilDashSep_append_nonws (l1 l2 : List Char)
    (h : ∀ c ∈ l1, isWsChar c = false) :
    takeUntilDashSep (l1 ++ l2) = l1 ++ takeUntilDashSep l2 := by
  induction l1 with
  | nil => rfl
  | cons c rest ih =>
    have hc : isWsChar c = false := h c (List.mem_cons_self c rest)
    rw [List.cons_append, takeUntilDashSep,
      dashSepAt_cons_nonws c (rest ++ l2) hc]
    simp only [Bool.false_eq_true, if_false, List.cons_append, List.cons.injEq, true_and]
    exact ih fun d hd => h d (List.mem_cons_of_mem c hd)

theorem dashAfterWs_nonws_block (dl : List Char) (l : List Char) (hd : dl ≠ [])
    (hne : dl ≠ ['-']) (h : ∀ c ∈ dl, isWsChar c = false) :
    dashAfterWs (dl ++ ' ' :: l) = false := by
  match dl, hd with
  | d0 :: dtail, _ =>
    have h0 : isWsChar d0 = false := h d0 (List.mem_cons_self d0 dtail)
    rw [List.cons_append]
    simp only [dashAfterWs, h0, Bool.false_eq_true, if_false]
    by_cases hdash : d0 = '-'
    · subst hdash
      match dtail, hne with
      | d1 :: _, _ =>
        have h1 : isWsChar d1 = false := h d1 (List.mem_cons_of_mem _ (List.mem_cons_self d1 _))
        simp [h1]
      | [], hne => exact absurd rfl hne
    · simp [hdash]

theorem dashSepAt_boundary (l : List Char) :
    dashSepAt (' ' :: '-' :: ' ' :: l) = true := rfl

theorem takeUntilDashSep_boundary (l : List Char) :
    takeUntilDashSep (' ' :: '-' :: ' ' :: l) = [] := by
  rw [takeUntilDashSep, dashSepAt_boundary]
  simp

theorem removeFirstOcc_prefix (pat rest : List Char) :
    removeFirstOcc pat (pat ++ rest) = rest := by
  match pat with
  | [] =>
    match rest with
    | [] => rfl
    | c :: r =>
      show removeFirstOcc [] (c :: r) = c :: r
      rw [removeFirstOcc]
      simp [List.isPrefixOf]
  | p :: ps =>
    rw [List.cons_append, removeFirstOcc]
    have hpre : (p :: ps).isPrefixOf (p :: ps ++ rest) = true := by
      rw [List.isPrefixOf_iff_prefix]
      exact ⟨rest, by simp⟩
    rw [List.cons_append] at hpre
    simp only [hpre, if_true]
    exact List.drop_left (p :: ps) rest

theorem dropWhile_ws_of_head (l : List Char)
    (h : ∀ c ∈ l.take 1, isWsChar c = false) :
    l.dropWhile isWsChar = l := by
  match l with
  | [] => rfl
  | c :: rest =>
    have hc : isWsChar c = false := h c (by simp)
    simp [List.dropWhile_cons, hc]

theorem stripDashSepPrefix_boundary (l : List Char) :
    stripDashSepPrefix (' ' :: '-' :: ' ' :: l) = l.dropWhile isWsChar := rfl

theorem eqSepMatch_cons_nonws (c : Char) (l : List Char) (h : isWsChar c = false) :
    eqSepMatch (c :: l) = none := by
  simp [eqSepMatch, h]

theorem eqSepMatch_boundary (l : List Char) :
    eqSepMatch (' ' :: '=' :: ' ' :: l) = some (l.dropWhile isWsChar) := rfl

theorem hasEqSep_append_of_right (l1 l2 : List Char) (h : hasEqSep l2 = true) :
    hasEqSep (l1 ++ l2) = true := by
  induction l1 with
  | nil => exact h
  | cons c rest ih =>
    rw [List.cons_append, hasEqSep, ih]
    simp

theorem hasEqSep_boundary (l : List Char) :
    hasEqSep (' ' :: '=' :: ' ' :: l) = true := by
  rw [hasEqSep, eqSepMatch_boundary]
  simp

theorem splitEqSepGo_append_nonws (l1 : List Char) :
    ∀ (acc l2 : List Char) (extra : Nat), (∀ c ∈ l1, isWsChar c = false) →
    splitEqSepGo (l1.length + extra) acc (l1 ++ l2)
      = splitEqSepGo extra (l1.reverse ++ acc) l2 := by
  induction l1 with
  | nil => intro acc l2 extra h; simp
  | cons c rest ih =>
    intro acc l2 extra h
    have hc : isWsChar c = false := h c (List.mem_cons_self c rest)
    rw [List.cons_append, List.length_cons, Nat.succ_add]
    rw [splitEqSepGo, eqSepMatch_cons_nonws c (rest ++ l2) hc]
    rw [ih (c :: acc) l2 extra fun d hd => h d (List.mem_cons_of_mem c hd)]
    simp

theorem splitEqSepGo_nil (fuel : Nat) (acc : List Char) :
    splitEqSepGo fuel acc [] = [acc.reverse] := by
  match fuel with
  | 0 => simp [splitEqSepGo]
  | _ + 1 => rfl

theorem splitEqSepGo_boundary (fuel : Nat) (acc dl : List Char) :
    splitEqSepGo (fuel + 1) acc (' ' :: '=' :: ' ' :: dl)
      = acc.reverse :: splitEqSepGo fuel [] (dl.dropWhile isWsChar) := by
  simp [splitEqSepGo, eqSepMatch_boundary]

theorem splitEqSep_name_default (nm dl : List Char)
    (hnm : ∀ c ∈ nm, isWsChar c = false)
    (hdl : ∀ c ∈ dl, isWsChar c = false) :
    splitEqSep (nm ++ ' ' :: '=' :: ' ' :: dl) = [nm, dl] := by
  unfold splitEqSep
  rw [List.length_append]
  rw [splitEqSepGo_append_nonws nm [] (' ' :: '=' :: ' ' :: dl)
    (' ' :: '=' :: ' ' :: dl).length hnm]
  show splitEqSepGo ((dl.length + 2) + 1) (nm.reverse ++ []) (' ' :: '=' :: ' ' :: dl)
    = [nm, dl]
  rw [splitEqSepGo_boundary,
    dropWhile_ws_of_head dl (fun c hc => hdl c (List.mem_of_mem_take hc))]
  have h2 : splitEqSepGo (dl.length + 2) [] dl = [dl] := by
    have h3 := splitEqSepGo_append_nonws dl [] [] 2 hdl
    rw [List.append_nil] at h3
    rw [h3, splitEqSepGo_nil]
    simp
  rw [h2]
  simp

theorem takeUntilDashSep_cons (c : Char) (rest : List Char) :
    takeUntilDashSep (c :: rest)
      = if dashSepAt (c :: rest) then [] else c :: takeUntilDashSep rest := rfl

theorem takeUntilDashSep_eq_block (dl dr : List Char) (hne : dl ≠ [])
    (hnd : dl ≠ ['-']) (hws : ∀ c ∈ dl, isWsChar c = false) :
    takeUntilDashSep (' ' :: '=' :: ' ' :: (dl ++ ' ' :: '-' :: ' ' :: dr))
      = ' ' :: '=' :: ' ' :: dl := by
  have e1 : dashSepAt (' ' :: '=' :: ' ' :: (dl ++ ' ' :: '-' :: ' ' :: dr)) = false := rfl
  have e2 : dashSepAt ('=' :: ' ' :: (dl ++ ' ' :: '-' :: ' ' :: dr)) = false := rfl
  have e3 : dashSepAt (' ' :: (dl ++ ' ' :: '-' :: ' ' :: dr)) = false := by
    simp only [dashSepAt]
    rw [dashAfterWs_nonws_block dl ('-' :: ' ' :: dr) hne hnd hws]
    simp
  rw [takeUntilDashSep_cons, e1]
  simp only [Bool.false_eq_true, if_false]
  rw [takeUntilDashSep_cons, e2]
  simp only [Bool.false_eq_true, if_false]
  rw [takeUntilDashSep_cons, e3]
  simp only [Bool.false_eq_true, if_false]
  rw [takeUntilDashSep_append_nonws dl _ hws, takeUntilDashSep_boundary,
    List.append_nil]

/-- C6: a raw parameter line of the shape `NAME = DEFAULT - DESCRIPTION`
(name and default are whitespace-free tokens, the default is not itself
`-`, and the description does not begin with whitespace) is split at the
first whitespace-dash-whitespace separator; the prefix splits at the
whitespace-equals-whitespace separator into the name and the default
value, and the remainder after the separator is the description. In
particular `"@color = #fff - Button color"` yields the parameter
`(name "@color", defaultValue "#fff", description "Button color")` — see
the witness. -/
theorem c6_parameter_grammar (mdInline : String → String) (options : Options)
    (name dflt desc : String) (hM : options.markdown = false)
    (hn : ∀ c ∈ name.data, isWsChar c = false)
    (hd0 : dflt ≠ "") (hdd : dflt ≠ "-") (hd : ∀ c ∈ dflt.data, isWsChar c = false)
    (hdesc : ∀ c ∈ desc.data.take 1, isWsChar c = false) :
    createParameters mdInline [name ++ " = " ++ dflt ++ " - " ++ desc] options
      = [⟨name, dflt, desc⟩] := by
  have hdne : dflt.data ≠ [] := fun hc => hd0 (by
    cases dflt
    simp at hc
    simp [hc])
  have hdnd : dflt.data ≠ ['-'] := fun hc => hdd (by
    cases dflt
    simp at hc
    simp [hc])
  have hdata : (name ++ " = " ++ dflt ++ " - " ++ desc).data
      = name.data ++ (' ' :: '=' :: ' ' :: (dflt.data ++ ' ' :: '-' :: ' ' :: desc.data)) := by
    simp [String.data_append]
  have hpar : takeUntilDashSep (name ++ " = " ++ dflt ++ " - " ++ desc).data
      = name.data ++ (' ' :: '=' :: ' ' :: dflt.data) := by
    rw [hdata, takeUntilDashSep_append_nonws name.data _ hn,
      takeUntilDashSep_eq_block dflt.data desc.data hdne hdnd hd]
  have hassoc : (name ++ " = " ++ dflt ++ " - " ++ desc).data
      = (name.data ++ (' ' :: '=' :: ' ' :: dflt.data)) ++ (' ' :: '-' :: ' ' :: desc.data) := by
    rw [hdata]
    simp [List.append_assoc]
  have hdescr : stripDashSepPrefix (removeFirstOcc
        (takeUntilDashSep (name ++ " = " ++ dflt ++ " - " ++ desc).data)
        (name ++ " = " ++ dflt ++ " - " ++ desc).data) = desc.data := by
    rw [hpar, hassoc, removeFirstOcc_prefix, stripDashSepPrefix_boundary,
      dropWhile_ws_of_head desc.data hdesc]
  have heq : hasEqSep (takeUntilDashSep (name ++ " = " ++ dflt ++ " - " ++ desc).data)
      = true := by
    rw [hpar]
    exact hasEqSep_append_of_right name.data _ (hasEqSep_boundary dflt.data)
  have hsplit : splitEqSep (takeUntilDashSep (name ++ " = " ++ dflt ++ " - " ++ desc).data)
      = [name.data, dflt.data] := by
    rw [hpar]
    exact splitEqSep_name_default name.data dflt.data hn hd
  unfold createParameters
  simp only [List.map_cons, List.map_nil, hdescr, heq, hsplit, hM, if_true,
    Bool.false_eq_true, if_false, List.getD]
  simp

/-- Witness for `c6_parameter_grammar` at the concrete line
`"@color = #fff - Button color"` from the specification. -/
theorem c6_parameter_grammar_witness :
    createParameters id ["@color" ++ " = " ++ "#fff" ++ " - " ++ "Button color"]
        ⟨false, true, []⟩
      = [⟨"@color", "#fff", "Button color"⟩] :=
  c6_parameter_grammar id ⟨false, true, []⟩ "@color" "#fff" "Button color" rfl
    (by decide) (by decide) (by decide) (by decide) (by decide)

/-- Counterexample to C7 as stated. First, the fold applies a character
class that includes the literal `|`: the multi-line modifier description
`"a||b\nc"` folds to `"a b c"`, with the pipes collapsed, not to the
claimed `"a||b c"`. Second, parameter descriptions are never folded at
all: the multi-line parameter description `"a\nb"` is kept verbatim
instead of folding to `"a b"`. -/
theorem c7_counterexample :
    (createModifiers id [":x - a||b\nc"] ⟨false, true, []⟩
        = [⟨":x", "a b c"⟩] ∧ ("a b c" : String) ≠ "a||b c")
    ∧ (createParameters id ["@c - a\nb"] ⟨false, true, []⟩
        = [⟨"@c", "", "a\nb"⟩] ∧ ("a\nb" : String) ≠ "a b") :=
  ⟨⟨by decide, by decide⟩, ⟨by decide, by decide⟩⟩

/-- C7 as amended: only modifier descriptions are folded. A multi-line
modifier description has its newlines collapsed to spaces and then every
run of two or more characters of the class whitespace-or-`|` collapsed to
one space (`collapseRuns`); a single-line modifier description is left
verbatim; and a parameter description is always left verbatim, even when
it spans multiple lines. -/
theorem c7_folding_amended (mdInline : String → String) (options : Options)
    (d : String) (hM : options.markdown = false)
    (hd : ∀ c ∈ d.data.take 1, isWsChar c = false) :
    createModifiers mdInline [":hover - " ++ d] options
      = [⟨":hover", ⟨if d.data.contains '\n' then collapseRuns (nlToSpace d.data)
          else d.data⟩⟩]
    ∧ createParameters mdInline ["@c - " ++ d] options = [⟨"@c", "", d⟩] := by
  have hdw : d.data.dropWhile isWsChar = d.data := dropWhile_ws_of_head d.data hd
  have hdat : (":hover - " ++ d).data = ":hover".data ++ (' ' :: '-' :: ' ' :: d.data) := rfl
  have hpar : takeUntilDashSep (":hover".data ++ (' ' :: '-' :: ' ' :: d.data))
      = ":hover".data := by
    rw [takeUntilDashSep_append_nonws ":hover".data _ (by decide),
      takeUntilDashSep_boundary, List.append_nil]
  have hdat2 : ("@c - " ++ d).data = "@c".data ++ (' ' :: '-' :: ' ' :: d.data) := rfl
  have hpar2 : takeUntilDashSep ("@c".data ++ (' ' :: '-' :: ' ' :: d.data))
      = "@c".data := by
    rw [takeUntilDashSep_append_nonws "@c".data _ (by decide),
      takeUntilDashSep_boundary, List.append_nil]
  have hq : hasEqSep "@c".data = false := by decide
  constructor
  · unfold createModifiers
    simp only [List.map_cons, List.map_nil, hdat, hpar, removeFirstOcc_prefix,
      stripDashSepPrefix_boundary, hdw, hM, Bool.false_eq_true, if_false]
  · unfold createParameters
    simp only [List.map_cons, List.map_nil, hdat2, hpar2, removeFirstOcc_prefix,
      stripDashSepPrefix_boundary, hdw, hq, hM, Bool.false_eq_true, if_false]

/-- Witness for `c7_folding_amended` at the single-line description
`"Highlight"` (left verbatim, yielding the modifier of the
specification's example) and, through the same instantiation, the
verbatim parameter description. -/
theorem c7_folding_amended_witness :
    createModifiers id [":hover - " ++ "Highlight"] ⟨false, true, []⟩
      = [⟨":hover", ⟨if "Highlight".data.contains '\n'
          then collapseRuns (nlToSpace "Highlight".data) else "Highlight".data⟩⟩]
    ∧ createParameters id ["@c - " ++ "Highlight"] ⟨false, true, []⟩
      = [⟨"@c", "", "Highlight"⟩] :=
  c7_folding_amended id ⟨false, true, []⟩ "Highlight" rfl (by decide)

/-! ### Safety of extraction (C9): every block's raw content, with
whitespace and `*` markers removed, occurs contiguously in the input -/

/-- Remove whitespace and comment-marker (`*`) characters, as in the
repository's own test `raw.replace(/\s|\*/g, '')`. -/
def fm (l : List Char) : List Char :=
  l.filter fun c => !(isWsChar c || c = '*')

/-- The filtered content of a list of lines. -/
def fmLines (ls : List (List Char)) : List Char :=
  (ls.map fm).flatten

theorem fm_append (a b : List Char) : fm (a ++ b) = fm a ++ fm b :=
  List.filter_append ..

theorem fm_ws_cons (c : Char) (l : List Char) (h : isWsChar c = true) :
    fm (c :: l) = fm l := by
  simp [fm, h]

theorem fm_dropWhile_ws (l : List Char) : fm (l.dropWhile isWsChar) = fm l := by
  induction l with
  | nil => rfl
  | cons c rest ih =>
    by_cases h : isWsChar c = true
    · rw [List.dropWhile_cons_of_pos h, ih, fm_ws_cons c rest h]
    · rw [List.dropWhile_cons_of_neg h]

theorem fm_reverse (l : List Char) : fm l.reverse = (fm l).reverse :=
  List.filter_reverse ..

theorem fm_dropTrailingWs (l : List Char) : fm (dropTrailingWs l) = fm l := by
  unfold dropTrailingWs
  rw [fm_reverse, fm_dropWhile_ws, fm_reverse, List.reverse_reverse]

theorem fm_cons_congr (c : Char) {l1 l2 : List Char} (h : fm l1 = fm l2) :
    fm (c :: l1) = fm (c :: l2) := by
  unfold fm at h ⊢
  simp only [List.filter_cons, h]

theorem fm_normalizeNewlines (l : List Char) : fm (normalizeNewlines l) = fm l := by
  have e1 : ∀ m, fm ('\n' :: m) = fm m := fun m => fm_ws_cons '\n' m rfl
  have e2 : ∀ m, fm ('\x0d' :: m) = fm m := fun m => fm_ws_cons '\x0d' m rfl
  induction l using normalizeNewlines.induct with
  | case1 => rfl
  | case2 rest2 ih =>
    have hn : normalizeNewlines ('\x0d' :: '\n' :: rest2) = '\n' :: normalizeNewlines rest2 := by
      simp [normalizeNewlines]
    rw [hn, e1, ih, e2, e1]
  | case3 d rest2 hd ih =>
    have hn : normalizeNewlines ('\x0d' :: d :: rest2)
        = '\n' :: normalizeNewlines (d :: rest2) := by
      simp [normalizeNewlines, hd]
    rw [hn, e1, ih, e2]
  | case4 =>
    have hn : normalizeNewlines ['\x0d'] = ['\n'] := by simp [normalizeNewlines]
    rw [hn, e1, e2]
  | case5 c rest hc ih =>
    have hn : normalizeNewlines (c :: rest) = c :: normalizeNewlines rest := by
      rw [normalizeNewlines.eq_def]
      simp [hc]
    rw [hn]
    exact fm_cons_congr c ih

theorem splitLines_ne_nil (l : List Char) : splitLines l ≠ [] := by
  match l with
  | [] => simp [splitLines]
  | c :: rest =>
    rw [splitLines]
    by_cases hc : c = '\n'
    · simp [hc]
    · simp only [hc, if_false]
      match h : splitLines rest with
      | [] => simp
      | l0 :: ls => simp

theorem fmLines_splitLines (l : List Char) : fmLines (splitLines l) = fm l := by
  induction l with
  | nil => rfl
  | cons c rest ih =>
    rw [splitLines]
    by_cases hc : c = '\n'
    · subst hc
      simp only [if_true, reduceIte]
      rw [show fmLines ([] :: splitLines rest) = fm [] ++ fmLines (splitLines rest) from rfl,
        ih, fm_ws_cons '\n' _ rfl]
      rfl
    · simp only [hc, if_false]
      match h : splitLines rest with
      | [] => exact absurd h (splitLines_ne_nil rest)
      | l0 :: ls =>
        rw [h] at ih
        have hfc : fm (c :: rest) = fm [c] ++ fm rest := fm_append [c] rest
        rw [show fmLines ((c :: l0) :: ls) = fm (c :: l0) ++ (ls.map fm).flatten from rfl]
        rw [show fm (c :: l0) = fm [c] ++ fm l0 from fm_append [c] l0, hfc, ← ih]
        rw [show fmLines (l0 :: ls) = fm l0 ++ (ls.map fm).flatten from rfl]
        simp [List.append_assoc]

theorem infix_extend {x a : List Char} (b : List Char) (h : x <:+: a) :
    x <:+: a ++ b := by
  obtain ⟨s, t, hst⟩ := h
  exact ⟨s, t ++ b, by rw [← hst]; simp⟩

theorem suffix_extend {x a : List Char} (y : List Char) (h : x <:+ a) :
    x ++ y <:+ a ++ y := by
  obtain ⟨p, hp⟩ := h
  exact ⟨p, by rw [← hp]; simp⟩

/-- The invariant maintained by the scanner over the filtered content
`acc` of the lines processed so far: every emitted block's filtered raw
content is an infix of `acc`, the current block's filtered raw content is
a suffix of `acc`, and outside any block the current raw buffer is
empty. -/
def ScanInv (st : ScanState) (acc : List Char) : Prop :=
  (∀ b ∈ st.blocks, fm b.raw <:+: acc)
  ∧ fm st.block.raw <:+ acc
  ∧ (st.insideSingleBlock = false ∧ st.insideMultiBlock = false ∧
      st.insideDocblock = false → st.block.raw = [])

theorem scanLineRest_inv (st : ScanState) (i : Nat) (line : List Char) (acc : List Char)
    (hsingle : st.insideSingleBlock = false)
    (h : ScanInv st acc) : ScanInv (scanLineRest st i line) (acc ++ fm line) := by
  obtain ⟨hblocks, hsuffix, hempty⟩ := h
  have hb' : ∀ b ∈ st.blocks, fm b.raw <:+: acc ++ fm line :=
    fun b hb => infix_extend _ (hblocks b hb)
  have hstep : fm (st.block.raw ++ line ++ ['\n']) <:+ acc ++ fm line := by
    rw [fm_append, fm_append, show fm ['\n'] = [] from rfl, List.append_nil]
    exact suffix_extend _ hsuffix
  unfold scanLineRest
  by_cases h1 : matchDocblockStart line = true
  · simp only [h1, if_true]
    exact ⟨hb', hstep, by intro hc; simp at hc⟩
  · simp only [h1, Bool.false_eq_true, if_false]
    by_cases h2 : st.insideDocblock = true
    · simp only [h2, if_true]
      refine ⟨hb', hstep, ?_⟩
      intro hc
      simp only [] at hc
      exact absurd hc.2.2 (by simp [h2])
    · simp only [h2, Bool.false_eq_true, if_false]
      by_cases h3 : matchMultiStart line = true
      · simp only [h3, if_true]
        exact ⟨hb', hstep, by intro hc; simp at hc⟩
      · simp only [h3, Bool.false_eq_true, if_false]
        by_cases h4 : st.insideMultiBlock = true
        · simp only [h4, if_true]
          cases hia : st.indentAmount with
          | none =>
            simp only []
            by_cases h5 : line = []
            · subst h5
              rw [if_pos rfl]
              refine ⟨hb', hstep, ?_⟩
              intro hc
              simp only [] at hc
              exact absurd hc.2.1 (by simp [h4])
            · simp only [h5, if_false]
              refine ⟨hb', hstep, ?_⟩
              intro hc
              simp only [] at hc
              exact absurd hc.2.1 (by simp [h4])
          | some ind =>
            refine ⟨hb', hstep, ?_⟩
            intro hc
            simp only [] at hc
            exact absurd hc.2.1 (by simp [h4])
        · simp only [h4, Bool.false_eq_true, if_false]
          rw [Bool.not_eq_true] at h2 h4
          have hraw : st.block.raw = [] := hempty ⟨hsingle, h4, h2⟩
          refine ⟨hb', ?_, fun _ => hraw⟩
          rw [hraw]
          show fm [] <:+ acc ++ fm line
          exact List.nil_suffix

theorem scanInv_finalized (st : ScanState) (acc z : List Char) (h : ScanInv st acc) :
    ScanInv ⟨st.blocks ++ [{ st.block with text := trimNlEdges st.block.text }],
      ⟨0, [], []⟩, none, false, false, false⟩ (acc ++ z) := by
  obtain ⟨hblocks, hsuffix, _⟩ := h
  refine ⟨?_, ?_, fun _ => rfl⟩
  · intro b hb
    rcases List.mem_append.mp hb with hm | hm
    · exact infix_extend _ (hblocks b hm)
    · have hb2 : b = { st.block with text := trimNlEdges st.block.text } := by
        simpa using hm
      subst hb2
      exact infix_extend _ hsuffix.isInfix
  · show fm [] <:+ acc ++ z
    exact List.nil_suffix

theorem scanLine_inv (st : ScanState) (i : Nat) (line : List Char) (acc : List Char)
    (h : ScanInv st acc) : ScanInv (scanLine st i line) (acc ++ fm line) := by
  have hfml : fm (dropTrailingWs line) = fm line := fm_dropTrailingWs line
  unfold scanLine
  simp only []
  by_cases hfin : (st.insideSingleBlock ||
      ((st.insideMultiBlock || st.insideDocblock) &&
        matchMultiFinish (dropTrailingWs line))) = true
  · simp only [hfin, if_true]
    have hbase : ScanInv ⟨st.blocks ++ [{ st.block with text := trimNlEdges st.block.text }],
        ⟨0, [], []⟩, none, false, false, false⟩ acc := by
      have h0 := scanInv_finalized st acc [] h
      rwa [List.append_nil] at h0
    by_cases hsing : st.insideSingleBlock = true
    · simp only [hsing, Bool.not_true, Bool.and_false, Bool.false_eq_true, if_false]
      have h1 := scanLineRest_inv _ i (dropTrailingWs line) acc rfl hbase
      rw [hfml] at h1
      exact h1
    · simp only [hsing, Bool.not_false, Bool.and_true, if_true]
      exact scanInv_finalized st acc (fm line) h
  · simp only [hfin, Bool.false_eq_true, Bool.false_and, if_false]
    have hsing : st.insideSingleBlock = false := by
      revert hfin
      cases st.insideSingleBlock <;> simp
    have h1 := scanLineRest_inv st i (dropTrailingWs line) acc hsing h
    rw [hfml] at h1
    exact h1

theorem scanLines_inv (lines : List (List Char)) :
    ∀ (st : ScanState) (i : Nat) (acc : List Char), ScanInv st acc →
      ScanInv (scanLines st i lines) (acc ++ fmLines lines) := by
  induction lines with
  | nil =>
    intro st i acc h
    show ScanInv st (acc ++ fmLines [])
    rw [show fmLines [] = [] from rfl, List.append_nil]
    exact h
  | cons l ls ih =>
    intro st i acc h
    show ScanInv (scanLines (scanLine st i l) (i + 1) ls) (acc ++ fmLines (l :: ls))
    rw [show fmLines (l :: ls) = fm l ++ fmLines ls from rfl, ← List.append_assoc]
    exact ih (scanLine st i l) (i + 1) (acc ++ fm l) (scanLine_inv st i l acc h)

/-- C9: comment-block extraction is a total function and every emitted
block's raw content is, after removing whitespace and `*` marker
characters, a contiguous substring of the input so filtered (the
repository's own test property, part_000 lines 88-95). -/
theorem c9_extraction_infix (input : String) :
    ∀ b ∈ findCommentBlocks input, fm b.raw <:+: fm input.data := by
  intro b hb
  unfold findCommentBlocks at hb
  simp only [] at hb
  have hinit : ScanInv initState [] := by
    refine ⟨fun b hb => absurd hb (List.not_mem_nil b), ?_, fun _ => rfl⟩
    show fm [] <:+ []
    exact List.nil_suffix
  have hinv := scanLines_inv (splitLines (normalizeNewlines input.data ++ ['\n']))
    initState 0 [] hinit
  have h1 := hinv.1 b hb
  rw [List.nil_append, fmLines_splitLines, fm_append, fm_normalizeNewlines,
    show fm ['\n'] = [] from rfl, List.append_nil] at h1
  exact h1

/-- Witness for `c9_extraction_infix`: the single block extracted from
`"/**\n * x\n */"` has raw content `"/**\n * x\n"`, and its filtered
content is an infix of the filtered input. -/
theorem c9_extraction_infix_witness :
    fm ("/**\n * x\n".data) <:+: fm ("/**\n * x\n */".data) :=
  c9_extraction_infix "/**\n * x\n */" ⟨1, "x".data, "/**\n * x\n".data⟩ (by decide)

/-! ### The non-doc multi-line path is dead code (C2)

`multiStart` and `docblockStart` are the same regular expression, and the
docblock branch is tested first on every line, so the multi-line branch —
the only place `insideMultiBlock` is set and `indentAmount` is captured
and stripped — can never run. The following definitions state the
resulting behaviour: an extractor with only the docblock branches. -/

/-- The branch chain of the scanner with the unreachable non-doc
multi-line branches removed: only docblock opening, docblock interior, or
no-op. States the amended C2 behaviour. -/
def scanLineRestDoc (st : ScanState) (i : Nat) (line : List Char) : ScanState :=
  if matchDocblockStart line then
    { st with insideDocblock := true,
              block := { st.block with raw := st.block.raw ++ line ++ ['\n'], line := i + 1 } }
  else if st.insideDocblock then
    let bl := { st.block with raw := st.block.raw ++ line ++ ['\n'] }
    { st with block := { bl with text := bl.text ++ stripDocStar line ++ ['\n'] } }
  else st

/-- One scanner iteration with the unreachable single-line and non-doc
multi-line handling removed. -/
def scanLineDoc (st0 : ScanState) (i : Nat) (line0 : List Char) : ScanState :=
  let line := dropTrailingWs line0
  if st0.insideDocblock && matchMultiFinish line then
    { blocks := st0.blocks ++ [{ st0.block with text := trimNlEdges st0.block.text }],
      block := ⟨0, [], []⟩, indentAmount := none,
      insideSingleBlock := false, insideMultiBlock := false, insideDocblock := false }
  else scanLineRestDoc st0 i line

/-- The doc-only scanner loop. -/
def scanLinesDoc (st : ScanState) (i : Nat) : List (List Char) → ScanState
  | [] => st
  | l :: ls => scanLinesDoc (scanLineDoc st i l) (i + 1) ls

/-- The doc-only comment-block extractor. -/
def findCommentBlocksDoc (input : String) : List Block :=
  let inp := normalizeNewlines input.data ++ ['\n']
  (scanLinesDoc initState 0 (splitLines inp)).blocks

theorem matchMultiStart_eq : matchMultiStart = matchDocblockStart := rfl

/-- The scanner state stays outside the dead branches: no single-line
block, no non-doc multi-line block, no captured indent. -/
def CleanState (st : ScanState) : Prop :=
  st.insideSingleBlock = false ∧ st.insideMultiBlock = false ∧ st.indentAmount = none

theorem scanLineRest_eq_doc (st : ScanState) (i : Nat) (line : List Char)
    (hm : st.insideMultiBlock = false) :
    scanLineRest st i line = scanLineRestDoc st i line := by
  unfold scanLineRest scanLineRestDoc
  by_cases h1 : matchDocblockStart line = true
  · simp only [h1, if_true]
  · simp only [h1, Bool.false_eq_true, if_false]
    by_cases h2 : st.insideDocblock = true
    · simp only [h2, if_true]
    · simp only [h2, Bool.false_eq_true, if_false, matchMultiStart_eq]
      rw [if_neg h1, if_neg (show ¬st.insideMultiBlock = true by simp [hm])]

theorem scanLineRest_clean (st : ScanState) (i : Nat) (line : List Char)
    (h : CleanState st) : CleanState (scanLineRest st i line) := by
  obtain ⟨hs, hm, hi⟩ := h
  unfold scanLineRest
  by_cases h1 : matchDocblockStart line = true
  · simp only [h1, if_true]
    exact ⟨hs, hm, hi⟩
  · simp only [h1, Bool.false_eq_true, if_false]
    by_cases h2 : st.insideDocblock = true
    · simp only [h2, if_true]
      exact ⟨hs, hm, hi⟩
    · simp only [h2, Bool.false_eq_true, if_false, matchMultiStart_eq]
      rw [if_neg h1, if_neg (show ¬st.insideMultiBlock = true by simp [hm])]
      exact ⟨hs, hm, hi⟩

theorem scanLine_eq_doc (st : ScanState) (i : Nat) (line : List Char)
    (h : CleanState st) :
    scanLine st i line = scanLineDoc st i line ∧ CleanState (scanLine st i line) := by
  obtain ⟨hs, hm, hi⟩ := h
  unfold scanLine scanLineDoc
  simp only [hs, hm, Bool.false_or, Bool.not_false, Bool.and_true]
  by_cases hfin : (st.insideDocblock && matchMultiFinish (dropTrailingWs line)) = true
  · simp only [hfin, if_true]
    refine ⟨by trivial, ?_⟩
    exact ⟨rfl, rfl, rfl⟩
  · simp only [hfin, Bool.false_eq_true, if_false]
    exact ⟨scanLineRest_eq_doc st i (dropTrailingWs line) hm,
      scanLineRest_clean st i (dropTrailingWs line) ⟨hs, hm, hi⟩⟩

theorem scanLines_eq_doc (lines : List (List Char)) :
    ∀ (st : ScanState) (i : Nat), CleanState st →
      scanLines st i lines = scanLinesDoc st i lines := by
  induction lines with
  | nil => intro st i _; rfl
  | cons l ls ih =>
    intro st i h
    obtain ⟨heq, hclean⟩ := scanLine_eq_doc st i l h
    show scanLines (scanLine st i l) (i + 1) ls = scanLinesDoc (scanLineDoc st i l) (i + 1) ls
    rw [← heq]
    exact ih (scanLine st i l) (i + 1) hclean

/-- C2 as amended: the non-doc multi-line path of the extractor is dead
code. Because the `multiStart` pattern is identical to `docblockStart`
and the docblock branch is tested first, `insideMultiBlock` is never set
and `indentAmount` stripping never happens: on every input the extractor
behaves exactly like the doc-only extractor, whose interior lines are
de-indented solely by the docblock rule `line.replace(/^\s*\*\s?/, '')`.
-/
theorem c2_multiline_path_dead (input : String) :
    findCommentBlocks input = findCommentBlocksDoc input := by
  unfold findCommentBlocks findCommentBlocksDoc
  simp only [scanLines_eq_doc _ initState 0 ⟨rfl, rfl, rfl⟩]

theorem foldl_pushSection {α : Type} (f : α → Option SectionMap) (l : List α) :
    ∀ acc : List SectionMap,
      l.foldl (fun acc x => pushSection acc (f x)) acc = acc ++ l.filterMap f := by
  induction l with
  | nil => intro acc; simp
  | cons x xs ih =>
    intro acc
    cases h : f x with
    | some y =>
      simp only [List.foldl_cons, h, show ∀ a s, pushSection a (some s) = a ++ [s]
          from fun _ _ => rfl,
        ih (acc ++ [y]), List.filterMap_cons, h, List.append_assoc, List.singleton_append]
    | none =>
      simp only [List.foldl_cons, h, show ∀ a, pushSection a none = a from fun _ => rfl,
        ih acc, List.filterMap_cons, h]

theorem foldl_append_flatten {α β : Type} (g : α → List β) (l : List α) :
    ∀ acc : List β, l.foldl (fun acc x => acc ++ g x) acc = acc ++ (l.map g).flatten := by
  induction l with
  | nil => intro acc; simp
  | cons x xs ih =>
    intro acc
    simp only [List.foldl_cons, ih (acc ++ g x), List.map_cons, List.flatten_cons,
      List.append_assoc]

/-- C8: the aggregate's sections preserve input order. The sections built
by `parse` are exactly the concatenation, in input order, of the per-file
section lists, each of which lists its file's qualifying blocks in block
order (`fileSections` is a `filterMap` over the ordered block list); no
re-sorting by weight or reference occurs. -/
theorem c8_order_preserved (cb : Collab) (input : List ParseEntry)
    (optionsIn : OptionsIn) :
    (parse cb input optionsIn).sections
      = ((input.map entryFile).map (fileSections cb (defaultedOptions optionsIn))).flatten := by
  unfold parse KssStyleGuide
  simp only []
  have hfun : (fun (acc : List SectionMap) (file : KssFile) =>
      (findCommentBlocks file.contents).foldl (fun acc comment =>
        pushSection acc (buildSection (defaultedOptions optionsIn) cb file comment
          (cb.dbParse ⟨comment.raw⟩))) acc)
      = fun (acc : List SectionMap) (file : KssFile) =>
          acc ++ fileSections cb (defaultedOptions optionsIn) file := by
    funext acc file
    unfold fileSections
    exact foldl_pushSection
      (fun comment => buildSection (defaultedOptions optionsIn) cb file comment
        (cb.dbParse ⟨comment.raw⟩)) (findCommentBlocks file.contents) acc
  rw [hfun, foldl_append_flatten (fileSections cb (defaultedOptions optionsIn))
    (input.map entryFile) []]
  rfl

end KssCssdoc
